import Mathlib

/-
Verification development for the cygnals reactive-value library
(src/src/index.ts). The definitions below are shallow embeddings of the
functions in that file; machine-checked theorems about them follow after
the definitions.

Observer callbacks are identified by natural-number ids. A JavaScript Set
of callbacks is modelled as an ordered entries table `List (Nat × Bool)`:
the Bool marks the entry as alive; deletion tombstones the entry in place
and re-addition appends at the end, which is exactly the observable
iteration behaviour of Set.prototype.forEach (entries added during
iteration are visited, entries deleted before being visited are not).
-/

/-- Ids of the live observers of an entries table, in insertion order. -/
def aliveIds (es : List (Nat × Bool)) : List Nat :=
  (es.filter (fun e => e.2)).map (fun e => e.1)

/-- Membership test of a Set modelled as an entries table (Set.has). -/
def hasId (es : List (Nat × Bool)) (i : Nat) : Bool :=
  es.any (fun e => e.1 == i && e.2)

/-- Set.add: appends a fresh live entry unless the id is already live. -/
def addId (es : List (Nat × Bool)) (i : Nat) : List (Nat × Bool) :=
  if hasId es i then es else es ++ [(i, true)]

/-- Set.delete: tombstones the live entry carrying the id, in place. -/
def deleteId (es : List (Nat × Bool)) (i : Nat) : List (Nat × Bool) :=
  es.map (fun e => if e.1 == i && e.2 then (e.1, false) else e)

/-- A mutable cell as built by state(initialValue) (index.ts lines 65-89):
a current value plus the observer set. -/
structure CellW (α : Type) where
  value : α
  subs : List (Nat × Bool)

/-- The set method of state (index.ts lines 72-78) with observer callbacks
treated as opaque: notify iff the new value differs by strict equality, the
stored value is assigned first, and the fan-out is returned as the list of
(observer id, notified value) events, one per registered observer. -/
def CellW.set {α : Type} [DecidableEq α] (c : CellW α) (newValue : α) :
    CellW α × List (Nat × α) :=
  if newValue ≠ c.value then
    ({ c with value := newValue }, (aliveIds c.subs).map (fun i => (i, newValue)))
  else
    ({ c with value := newValue }, [])

/-- The subscribe method of state (index.ts lines 79-83): add the callback
to the observer set and invoke it once, immediately, with the current
value. The second component lists the immediate invocations. -/
def CellW.subscribeOp {α : Type} (c : CellW α) (i : Nat) :
    CellW α × List (Nat × α) :=
  ({ c with subs := addId c.subs i }, [(i, c.value)])

/-- The onChange method of state (index.ts lines 84-87): add the callback
to the observer set with no immediate invocation. -/
def CellW.onChangeOp {α : Type} (c : CellW α) (i : Nat) :
    CellW α × List (Nat × α) :=
  ({ c with subs := addId c.subs i }, [])

/-- The invocations a given observer id receives in a fan-out log. -/
def callsTo {α : Type} (log : List (Nat × α)) (i : Nat) : List α :=
  log.filterMap (fun p => if p.1 = i then some p.2 else none)

/-- Effects an observer callback may have on the observer set being
iterated: do nothing, unsubscribe an observer, or subscribe an observer. -/
inductive Act : Type where
  | noop : Act
  | removeObs : Nat → Act
  | addObs : Nat → Act
deriving DecidableEq

/-- Applies a callback effect to the observer entries table. -/
def applyAct (es : List (Nat × Bool)) : Act → List (Nat × Bool)
  | Act.noop => es
  | Act.removeObs i => deleteId es i
  | Act.addObs i => addId es i

/-- Set.prototype.forEach over a live entries table, as used by the
notification loop at index.ts line 76: positions are visited left to
right, tombstoned entries are skipped, entries appended by a callback
during the iteration are visited, and each visited callback may mutate
the table. Fuel bounds the number of visited positions; with fuel at
least the table length and non-growing callbacks it never runs out. -/
def forEachSet {α : Type} (acts : Nat → Act) (v : α) :
    Nat → List (Nat × Bool) → Nat → List (Nat × Bool) × List (Nat × α)
  | 0, es, _ => (es, [])
  | fuel + 1, es, pos =>
    if h : pos < es.length then
      let e := es.get ⟨pos, h⟩
      if e.2 then
        let es2 := applyAct es (acts e.1)
        let r := forEachSet acts v fuel es2 (pos + 1)
        (r.1, (e.1, v) :: r.2)
      else
        forEachSet acts v fuel es (pos + 1)
    else (es, [])

/-- The set method of state (index.ts lines 72-78) with effectful observer
callbacks: the stored value is assigned first, then, iff it changed, the
observer set is iterated with Set.prototype.forEach semantics while each
invoked callback applies its effect to the very set being iterated. -/
def CellW.setW {α : Type} [DecidableEq α] (fuel : Nat) (acts : Nat → Act)
    (c : CellW α) (newValue : α) : CellW α × List (Nat × α) :=
  if newValue ≠ c.value then
    let r := forEachSet acts newValue fuel c.subs 0
    ({ value := newValue, subs := r.1 }, r.2)
  else ({ c with value := newValue }, [])

/-- The internal state of a derived value built by from (index.ts lines
155-156): the cached value cell, seeded with the unique empty sentinel
(none here), and the dirty flag cell, seeded true. -/
structure FromState (α : Type) where
  value : Option α
  dirty : Bool
deriving DecidableEq

/-- The state of a derived value right after construction. -/
def from_initial (α : Type) : FromState α := FromState.mk none true

/-- The recompute branch of safelyGetCurrentValue (index.ts lines 162-167):
invoke the combining function on the dependency values, and iff the result
differs by strict equality from the cached value, clear the dirty flag and
cache the result. The third component counts combining-function calls. -/
def recomputeStep {α δ : Type} [DecidableEq α] (fn : List δ → α)
    (depVals : List δ) (s : FromState α) : α × FromState α × Nat :=
  let computed := fn depVals
  if some computed ≠ s.value then
    (computed, FromState.mk (some computed) false, 1)
  else
    (computed, s, 1)

/-- safelyGetCurrentValue (index.ts lines 158-170): recompute when the
cache holds the empty sentinel or the dirty flag is set, returning the
fresh result; otherwise return the cached value with no recompute. The
dependency values are read in dependency order into depVals by
computeValue (line 151, deps.map of current). -/
def safelyGetCurrentValue {α δ : Type} [DecidableEq α] (fn : List δ → α)
    (depVals : List δ) (s : FromState α) : α × FromState α × Nat :=
  match s.value, s.dirty with
  | none, _ => recomputeStep fn depVals s
  | some _, true => recomputeStep fn depVals s
  | some v, false => (v, s, 0)

/-- The subscribe method of a derived value (index.ts lines 186-188):
it is dirty.subscribe(callCallback(callback)); the immediate invocation
hands the wrapper the current dirty flag, and the wrapper (lines 174-180)
forwards to the user callback, with the lazily recomputed value, only when
that flag is true. The second component lists the values handed to the
user callback immediately, before subscribe returns. -/
def from_subscribe_immediate {α δ : Type} [DecidableEq α] (fn : List δ → α)
    (depVals : List δ) (s : FromState α) : FromState α × List α :=
  if s.dirty then
    let r := safelyGetCurrentValue fn depVals s
    (r.2.1, [r.1])
  else (s, [])

/-- limitations.every with short-circuit, mirroring Array.prototype.every
as used at index.ts lines 246 and 252: predicates run in list order, the
walk stops at the first failure, and the second component counts how many
predicates were invoked. -/
def everyCount {α : Type} : List (α → Bool) → α → Bool × Nat
  | [], _ => (true, 0)
  | p :: ps, v =>
    if p v then
      let r := everyCount ps v
      (r.1, r.2 + 1)
    else (false, 1)

/-- Whether limit accepts a candidate value: every limitation passes. -/
def limitAccepts {α : Type} (ps : List (α → Bool)) (v : α) : Bool :=
  (everyCount ps v).1

/-- The seeding of the internal cell of limit (index.ts lines 245-249):
the current source value when every limitation passes on it, else null
(none here). -/
def limitSeed {α : Type} (ps : List (α → Bool)) (src : α) : Option α :=
  if limitAccepts ps src then some src else none

/-- The onChange handler of limit (index.ts lines 251-255): on a source
emission the internal cell is set to the emitted value iff every
limitation passes on it, and otherwise left unchanged. -/
def limitOnChange {α : Type} (ps : List (α → Bool)) (cur : Option α)
    (v : α) : Option α :=
  if limitAccepts ps v then some v else cur

/-- A token standing for the one internal writable cell of a limit call,
as passed to limitation functions. -/
inductive CellToken : Type where
  | internalCell : CellToken
deriving DecidableEq

/-- The argument pairs passed to limitation functions during the
construction of limit: line 246 reads limitation(initialSource), so every
invocation receives the source value and no second argument. One pair per
predicate actually invoked by the short-circuiting every. -/
def limitConstructionCalls {α : Type} (ps : List (α → Bool)) (src : α) :
    List (α × Option CellToken) :=
  List.replicate (everyCount ps src).2 (src, none)

/-- The argument pairs passed to limitation functions on a source
emission: line 252 reads limitation(source, value), so every invocation
receives the emitted value and the internal cell as second argument. -/
def limitEmissionCalls {α : Type} (ps : List (α → Bool)) (v : α) :
    List (α × Option CellToken) :=
  List.replicate (everyCount ps v).2 (v, some CellToken.internalCell)

/-- The private timer slot closed over by a debounce limitation (index.ts
line 271): at most one scheduled write, recorded as the absolute fire
time, the candidate value, and whether a writable second argument was
supplied to the invocation that scheduled it. -/
structure DebounceState (α : Type) where
  timer : Option (Nat × α × Bool)

/-- One invocation of the limitation returned by debounce(ms) (index.ts
lines 272-278) at absolute time now: clearTimeout discards any previously
scheduled write, setTimeout schedules a single new write of the candidate
value for now + ms, and the call returns false having performed no
synchronous write. Components: new timer state, the boolean returned to
every, and the (empty) list of synchronous writes. -/
def debounceCall {α : Type} (ms now : Nat) (v : α) (wPresent : Bool)
    (_s : DebounceState α) : DebounceState α × Bool × List α :=
  (DebounceState.mk (some (now + ms, v, wPresent)), false, [])

/-- A synchronous burst of source emissions at the common time t, each
processed by the same debounce limitation with the internal cell supplied
as writable. -/
def debounceBurst {α : Type} (ms t : Nat) (vs : List α)
    (s : DebounceState α) : DebounceState α :=
  vs.foldl (fun st v => (debounceCall ms t v true st).1) s

/-- The delayed writes the scheduled timer has delivered by the given
time: the timer callback runs writable?.set(value), which writes nothing
when the writable argument was absent. -/
def debounceFires {α : Type} (s : DebounceState α) (time : Nat) : List α :=
  match s.timer with
  | some (ft, v, true) => if ft ≤ time then [v] else []
  | some (_, _, false) => []
  | none => []

/-- The status record of an unwrapped promise (index.ts lines 284-298),
with absent fields rendered as none. -/
structure UnwrappedPromise (α ε : Type) where
  result : Option α
  pending : Bool
  error : Option ε
deriving DecidableEq

/-- The settlement of a promise: fulfilled with a result or rejected with
a reason. -/
inductive PromiseOutcome (α ε : Type) : Type where
  | fulfilledWith : α → PromiseOutcome α ε
  | rejectedWith : ε → PromiseOutcome α ε

/-- The await inside the handler of unwrapPromise (index.ts line 332):
fulfilment yields the result, rejection raises the reason. -/
def awaitOutcome {α ε : Type} : PromiseOutcome α ε → Except ε α
  | PromiseOutcome.fulfilledWith r => Except.ok r
  | PromiseOutcome.rejectedWith e => Except.error e

/-- The record written to the internal cell once the awaited promise
settles (index.ts lines 331-336): the try block stores the result, the
catch block captures the rejection reason locally and stores it in the
error field, so the function is total and no rejection escapes. -/
def settleRecord {α ε : Type} (out : PromiseOutcome α ε) :
    UnwrappedPromise α ε :=
  match awaitOutcome out with
  | Except.ok r => UnwrappedPromise.mk (some r) false none
  | Except.error e => UnwrappedPromise.mk none false (some e)

/-- An event seen by the internal cell of unwrapPromise: a source emission
(handled synchronously) or a later asynchronous settlement. -/
inductive AsyncEvent (α ε : Type) : Type where
  | emission : AsyncEvent α ε
  | settle : PromiseOutcome α ε → AsyncEvent α ε

/-- The value transitions of the internal cell of unwrapPromise: on each
source emission the handler synchronously sets the pending record
(index.ts line 330) before the await begins; each settlement later stores
its settle record (lines 331-336). -/
def unwrapStep {α ε : Type} (_cell : UnwrappedPromise α ε) :
    AsyncEvent α ε → UnwrappedPromise α ε
  | AsyncEvent.emission => UnwrappedPromise.mk none true none
  | AsyncEvent.settle out => settleRecord out

/-- The seed of the internal cell of unwrapPromise (index.ts lines
323-327). -/
def unwrapInitial (α ε : Type) : UnwrappedPromise α ε :=
  UnwrappedPromise.mk none false none

/-- The internal cell right after unwrapPromise returns: subscribe at
line 329 delivers the current promise immediately, so the handler has
already run its synchronous phase once. -/
def unwrapAfterConstruction (α ε : Type) : UnwrappedPromise α ε :=
  unwrapStep (unwrapInitial α ε) AsyncEvent.emission

/-- The limitation used by fulfilled (index.ts line 365): a status record
passes iff it is not pending and carries no error. -/
def fulfilledPred {α ε : Type} (r : UnwrappedPromise α ε) : Bool :=
  !r.pending && r.error.isNone

/-- The seed of the internal limit cell inside fulfilled, per the limit
construction applied to the current unwrapped record. -/
def fulfilledSeed {α ε : Type} (init : UnwrappedPromise α ε) :
    Option (UnwrappedPromise α ε) :=
  limitSeed [fulfilledPred] init

/-- One source emission into the internal limit cell inside fulfilled. -/
def fulfilledStep {α ε : Type} (cur : Option (UnwrappedPromise α ε))
    (r : UnwrappedPromise α ε) : Option (UnwrappedPromise α ε) :=
  limitOnChange [fulfilledPred] cur r

/-- The projection applied by fulfilled (index.ts line 367): on the
possibly-null limited record, promise?.result, collapsing the null record
and an absent result to none. -/
def fulfilledProject {α ε : Type} :
    Option (UnwrappedPromise α ε) → Option α
  | none => none
  | some r => r.result

/-- The boolean computed by the short-circuiting every agrees with the
conjunction of all predicates. -/
theorem everyCount_fst {α : Type} (ps : List (α → Bool)) (v : α) :
    (everyCount ps v).1 = ps.all (fun p => p v) := by
  induction ps with
  | nil => rfl
  | cons p ps ih => by_cases h : p v <;> simp [everyCount, h, ih]

/-- With every predicate before the failing one passing, the
short-circuiting every invokes exactly the predicates up to and including
the first failure. -/
theorem everyCount_shortCircuit {α : Type} (pre post : List (α → Bool))
    (p : α → Bool) (v : α) (hpre : ∀ q ∈ pre, q v = true)
    (hp : p v = false) :
    (everyCount (pre ++ p :: post) v).2 = pre.length + 1 := by
  induction pre with
  | nil => simp [everyCount, hp]
  | cons q rest ih =>
    have hq : q v = true := hpre q (by simp)
    have hrest : ∀ r ∈ rest, r v = true := fun r hr => hpre r (by simp [hr])
    simp [everyCount, hq, ih hrest]

/-- Fan-out logs concatenate pointwise per observer. -/
theorem callsTo_append {α : Type} (l1 l2 : List (Nat × α)) (i : Nat) :
    callsTo (l1 ++ l2) i = callsTo l1 i ++ callsTo l2 i := by
  simp [callsTo]

/-- In a fan-out that notifies a duplicate-free observer list once each,
every listed observer receives exactly one invocation and every other id
receives none. -/
theorem callsTo_map_const {α : Type} (obs : List Nat) (i : Nat) (v : α)
    (hn : obs.Nodup) :
    callsTo (obs.map (fun j => (j, v))) i = if i ∈ obs then [v] else [] := by
  induction obs with
  | nil => simp [callsTo]
  | cons j t ih =>
    have hn2 : t.Nodup := hn.of_cons
    have ih2 := ih hn2
    by_cases hj : j = i
    · subst hj
      have hnot : j ∉ t := (List.nodup_cons.mp hn).1
      simp only [List.map_cons, callsTo, List.filterMap_cons, if_pos rfl]
      simp only [callsTo] at ih2
      rw [ih2, if_neg hnot, if_pos (List.mem_cons_self j t)]
      simp
    · have hne : i ≠ j := fun h => hj h.symm
      simp only [List.map_cons, callsTo, List.filterMap_cons, if_neg hj]
      simp only [callsTo] at ih2
      rw [ih2]
      by_cases hm : i ∈ t
      · rw [if_pos hm, if_pos (List.mem_cons_of_mem j hm)]
      · rw [if_neg hm, if_neg (by simp [List.mem_cons, hne, hm])]

/-- Unfolds the live observers of a table with a leading entry. -/
theorem aliveIds_cons (e : Nat × Bool) (es : List (Nat × Bool)) :
    aliveIds (e :: es) = if e.2 then e.1 :: aliveIds es else aliveIds es := by
  by_cases h : e.2 <;> simp [aliveIds, List.filter_cons, h]

/-- When every live observer reacts with noop, the forEach loop leaves the
table unchanged and invokes, in order, exactly the live observers from the
current position onward. -/
theorem forEachSet_noop {α : Type} (acts : Nat → Act) (v : α) :
    ∀ (fuel : Nat) (es : List (Nat × Bool)) (pos : Nat),
      (∀ i ∈ aliveIds es, acts i = Act.noop) →
      es.length ≤ pos + fuel →
      forEachSet acts v fuel es pos =
        (es, (aliveIds (es.drop pos)).map (fun i => (i, v))) := by
  intro fuel
  induction fuel with
  | zero =>
    intro es pos _ hlen
    have hge : es.length ≤ pos := by omega
    have : ¬ pos < es.length := by omega
    simp [forEachSet, List.drop_eq_nil_of_le hge, aliveIds]
  | succ fuel ih =>
    intro es pos hacts hlen
    by_cases h : pos < es.length
    · have hdrop : es.drop pos = es.get ⟨pos, h⟩ :: es.drop (pos + 1) := by
        rw [List.drop_eq_getElem_cons h]
        simp
      by_cases halive : (es.get ⟨pos, h⟩).2
      · have hmem : (es.get ⟨pos, h⟩).1 ∈ aliveIds es := by
          simp only [aliveIds, List.mem_map]
          exact ⟨es.get ⟨pos, h⟩,
            List.mem_filter.mpr ⟨List.get_mem es pos h, halive⟩, rfl⟩
        have hact : acts (es.get ⟨pos, h⟩).1 = Act.noop := hacts _ hmem
        have hrec := ih es (pos + 1) hacts (by omega)
        simp only [forEachSet, dif_pos h, halive, if_true, hact, applyAct, hrec]
        rw [hdrop, aliveIds_cons, if_pos halive]
        simp
      · have hrec := ih es (pos + 1) hacts (by omega)
        simp only [forEachSet, dif_pos h, halive, if_false, hrec]
        rw [hdrop, aliveIds_cons, if_neg halive]
        simp
    · have hge : es.length ≤ pos := by omega
      simp [forEachSet, h, List.drop_eq_nil_of_le hge, aliveIds]

/-- A nonempty burst of debounce invocations at a common time leaves
exactly one scheduled write: the last candidate value, due the debounce
duration after the burst. -/
theorem debounceBurst_timer {α : Type} (ms t : Nat) :
    ∀ (vs : List α) (s : DebounceState α) (last : α),
      vs.getLast? = some last →
      (debounceBurst ms t vs s).timer = some (t + ms, last, true) := by
  intro vs
  induction vs with
  | nil => intro s last h; simp at h
  | cons v rest ih =>
    intro s last h
    cases rest with
    | nil =>
      simp at h
      subst h
      simp [debounceBurst, debounceCall]
    | cons w ws =>
      have h2 : (w :: ws).getLast? = some last := by
        rw [← List.getLast?_cons_cons]
        exact h
      exact ih (debounceCall ms t v true s).1 last h2

/-- Starting from a state that is null or satisfies the fulfilled
limitation, folding source emissions through the internal limit cell of
fulfilled preserves that invariant. -/
theorem fulfilled_foldl_all {α ε : Type} :
    ∀ (ems : List (UnwrappedPromise α ε)) (acc : Option (UnwrappedPromise α ε)),
      Option.all fulfilledPred acc = true →
      Option.all fulfilledPred (ems.foldl fulfilledStep acc) = true := by
  intro ems
  induction ems with
  | nil => intro acc h; simpa using h
  | cons r rest ih =>
    intro acc h
    have hstep : Option.all fulfilledPred (fulfilledStep acc r) = true := by
      by_cases hr : fulfilledPred r <;>
        simp [fulfilledStep, limitOnChange, limitAccepts, everyCount, hr, h]
    simpa [List.foldl_cons] using ih _ hstep

/-- The seed of the internal limit cell of fulfilled satisfies the
invariant: it is null or a record passing the fulfilled limitation. -/
theorem fulfilledSeed_all {α ε : Type} (init : UnwrappedPromise α ε) :
    Option.all fulfilledPred (fulfilledSeed init) = true := by
  by_cases h : fulfilledPred init <;>
    simp [fulfilledSeed, limitSeed, limitAccepts, everyCount, h]

/-- C1: for every mutable cell and value, set with a strictly different
value stores the value and notifies each registered observer exactly once
with it, in order, while set with a strictly equal value changes nothing
and notifies nobody; hence set a then set a notifies each observer exactly
once with a, and set a then set b (with b different from a) notifies each
observer exactly twice, with a then b. -/
theorem C1_set_strict_equality_notification {α : Type} [DecidableEq α]
    (c : CellW α) (a b : α) (hn : (aliveIds c.subs).Nodup) :
    (a ≠ c.value →
      (CellW.set c a).1.value = a ∧
      (CellW.set c a).1.subs = c.subs ∧
      (CellW.set c a).2 = (aliveIds c.subs).map (fun i => (i, a)) ∧
      (∀ i ∈ aliveIds c.subs, callsTo (CellW.set c a).2 i = [a]) ∧
      (CellW.set (CellW.set c a).1 a).2 = [] ∧
      (∀ i ∈ aliveIds c.subs,
        callsTo ((CellW.set c a).2 ++ (CellW.set (CellW.set c a).1 a).2) i
          = [a]) ∧
      (b ≠ a → ∀ i ∈ aliveIds c.subs,
        callsTo ((CellW.set c a).2 ++ (CellW.set (CellW.set c a).1 b).2) i
          = [a, b])) ∧
    (a = c.value → CellW.set c a = (c, [])) := by
  constructor
  · intro ha
    have h1 : CellW.set c a =
        (CellW.mk a c.subs, (aliveIds c.subs).map (fun i => (i, a))) := by
      simp [CellW.set, ha]
    have hval : (CellW.set c a).1.value = a := by rw [h1]
    have hsubs : (CellW.set c a).1.subs = c.subs := by rw [h1]
    have hlog : (CellW.set c a).2 = (aliveIds c.subs).map (fun i => (i, a)) := by
      rw [h1]
    have h2 : (CellW.set (CellW.set c a).1 a).2 = [] := by
      rw [h1]
      simp [CellW.set]
    have h3 : b ≠ a →
        (CellW.set (CellW.set c a).1 b).2 =
          (aliveIds c.subs).map (fun i => (i, b)) := by
      intro hb
      rw [h1]
      simp [CellW.set, hb]
    refine ⟨hval, hsubs, hlog, ?_, h2, ?_, ?_⟩
    · intro i hi
      rw [hlog, callsTo_map_const _ _ _ hn, if_pos hi]
    · intro i hi
      rw [callsTo_append, h2, hlog, callsTo_map_const _ _ _ hn, if_pos hi]
      simp [callsTo]
    · intro hb i hi
      rw [callsTo_append, h3 hb, hlog, callsTo_map_const _ _ _ hn,
        callsTo_map_const _ _ _ hn, if_pos hi, if_pos hi]
      rfl
  · intro ha
    subst ha
    cases c with
    | mk val subs => simp [CellW.set]

/-- Witness for C1 at a concrete cell with one observer. -/
theorem C1_witness :
    (aliveIds (CellW.mk (0 : Nat) [(0, true)]).subs).Nodup ∧
    ((1 : Nat) = (CellW.mk (0 : Nat) [(0, true)]).value →
      CellW.set (CellW.mk (0 : Nat) [(0, true)]) 1 =
        (CellW.mk 0 [(0, true)], [])) :=
  ⟨by decide,
   (C1_set_strict_equality_notification (CellW.mk 0 [(0, true)]) 1 2
      (by decide)).2⟩

/-- C2: current on a derived value invokes the combining function exactly
when the cache is the empty sentinel or the dirty flag is true, then
returns the fresh result, clearing the dirty flag and caching only when
the fresh result is strictly unequal to the cached value; otherwise it
returns the cached value without invoking the combining function. -/
theorem C2_current_lazy_recompute {α δ : Type} [DecidableEq α]
    (fn : List δ → α) (depVals : List δ) (s : FromState α) :
    ((s.value = none ∨ s.dirty = true) →
      (safelyGetCurrentValue fn depVals s).2.2 = 1 ∧
      (safelyGetCurrentValue fn depVals s).1 = fn depVals ∧
      (some (fn depVals) ≠ s.value →
        (safelyGetCurrentValue fn depVals s).2.1 =
          FromState.mk (some (fn depVals)) false) ∧
      (some (fn depVals) = s.value →
        (safelyGetCurrentValue fn depVals s).2.1 = s)) ∧
    (s.value ≠ none → s.dirty = false →
      (safelyGetCurrentValue fn depVals s).2.2 = 0 ∧
      (safelyGetCurrentValue fn depVals s).2.1 = s ∧
      s.value = some (safelyGetCurrentValue fn depVals s).1) := by
  obtain ⟨val, d⟩ := s
  cases val with
  | none =>
    refine ⟨fun _ => ?_, fun h _ => absurd rfl h⟩
    simp [safelyGetCurrentValue, recomputeStep]
  | some v =>
    cases d with
    | true =>
      refine ⟨fun _ => ?_, fun _ hd => by simp at hd⟩
      by_cases hveq : fn depVals = v
      · simp [safelyGetCurrentValue, recomputeStep, hveq]
      · simp [safelyGetCurrentValue, recomputeStep, hveq]
    | false =>
      refine ⟨fun h => ?_, fun _ _ => ?_⟩
      · rcases h with h | h
        · simp at h
        · simp at h
      · simp [safelyGetCurrentValue]

/-- Witness for C2: the first read of a fresh derived value invokes the
combining function once. -/
theorem C2_witness :
    (safelyGetCurrentValue (fun l : List Nat => l.headD 0 + 1) [1]
        (FromState.mk none true)).2.2 = 1 :=
  ((C2_current_lazy_recompute (fun l : List Nat => l.headD 0 + 1) [1]
      (FromState.mk none true)).1 (Or.inl rfl)).1

/-- C10: when a recomputation triggered by current yields a value strictly
equal to the cached one, the dirty flag stays true and the cache is
untouched, so the next current call invokes the combining function again;
after a recomputation that yields a strictly different value the dirty
flag clears and the next current call is memoized. -/
theorem C10_equal_recompute_keeps_dirty {α δ : Type} [DecidableEq α]
    (fn fn2 : List δ → α) (depVals : List δ) (s : FromState α) (v : α)
    (hd : s.dirty = true) (hv : s.value = some v) (hf : fn depVals = v) :
    safelyGetCurrentValue fn depVals s = (v, s, 1) ∧
    (safelyGetCurrentValue fn depVals
        (safelyGetCurrentValue fn depVals s).2.1).2.2 = 1 ∧
    (fn2 depVals ≠ v →
      (safelyGetCurrentValue fn2 depVals s).2.1 =
        FromState.mk (some (fn2 depVals)) false ∧
      (safelyGetCurrentValue fn2 depVals
          (safelyGetCurrentValue fn2 depVals s).2.1).2.2 = 0) := by
  cases s with
  | mk sv sd =>
    simp only at hv hd
    subst hv
    subst hd
    have heq : safelyGetCurrentValue fn depVals (FromState.mk (some v) true)
        = (v, FromState.mk (some v) true, 1) := by
      simp [safelyGetCurrentValue, recomputeStep, hf]
    refine ⟨heq, ?_, ?_⟩
    · rw [heq]
      simp [safelyGetCurrentValue, recomputeStep, hf]
    · intro hw
      have hne : some (fn2 depVals) ≠ some v := by simp [hw]
      have heq2 : safelyGetCurrentValue fn2 depVals (FromState.mk (some v) true)
          = (fn2 depVals, FromState.mk (some (fn2 depVals)) false, 1) := by
        simp [safelyGetCurrentValue, recomputeStep, hw]
      refine ⟨by rw [heq2], ?_⟩
      rw [heq2]
      simp [safelyGetCurrentValue]

/-- Witness for C10: a dirty recomputation that reproduces the cached
value leaves the state entirely unchanged, dirty flag included. -/
theorem C10_witness :
    safelyGetCurrentValue (fun l : List Nat => l.headD 0 + 1) [1]
      (FromState.mk (some 2) true) = (2, FromState.mk (some 2) true, 1) :=
  (C10_equal_recompute_keeps_dirty (fun l : List Nat => l.headD 0 + 1)
      (fun l : List Nat => l.headD 0 + 3) [1] (FromState.mk (some 2) true) 2
      rfl rfl rfl).1

/-- C3 counterexample: with observers 0 and 1 registered and the callback
of observer 0 removing observer 1 from the set mid-fan-out, a set call
with a changed value skips observer 1 entirely, although observer 1 was
registered at the start of the fan-out: the live forEach iteration of the
observer Set does not visit entries deleted before being visited. -/
theorem C3_counterexample :
    (1 : Nat) ∈ aliveIds (CellW.mk (0 : Nat) [(0, true), (1, true)]).subs ∧
    (5 : Nat) ≠ (CellW.mk (0 : Nat) [(0, true), (1, true)]).value ∧
    callsTo
      (CellW.setW (CellW.mk (0 : Nat) [(0, true), (1, true)]).subs.length
        (fun n => if n = 0 then Act.removeObs 1 else Act.noop)
        (CellW.mk 0 [(0, true), (1, true)]) 5).2 1 = [] := by
  decide

/-- C4: evaluation of the code at the failing input. After a derived value
built by from has a clean cache (here: a equals state(1), d equals
from(a, plus one), then d.current(), which stores 2 and clears the dirty
flag), d.subscribe delivers no immediate invocation at all: the wrapper
registered on the dirty cell suppresses the call because the dirty flag is
false. The claim — and the doc comment of Readable.subscribe in index.ts —
say the callback is invoked exactly once with the current value before
subscribe returns. The mutable cell built by state does satisfy the claim,
as the last two conjuncts record. -/
theorem C4_from_subscribe_missing_immediate_call :
    (from_subscribe_immediate (fun l : List Nat => l.headD 0 + 1) [1]
        ((safelyGetCurrentValue (fun l : List Nat => l.headD 0 + 1) [1]
            (from_initial Nat)).2.1)).2 = [] ∧
    (safelyGetCurrentValue (fun l : List Nat => l.headD 0 + 1) [1]
        (from_initial Nat)).2.1 = FromState.mk (some 2) false ∧
    (CellW.subscribeOp (CellW.mk (5 : Nat) []) 0).2 = [(0, 5)] ∧
    (CellW.onChangeOp (CellW.mk (5 : Nat) []) 0).2 = [] :=
  ⟨rfl, rfl, rfl, rfl⟩

/-- C5: the internal cell of limit is seeded with the current source value
iff every limitation passes on it and with null otherwise; a source
emission sets the internal cell to the emitted value iff every limitation
passes on it, evaluated in list order; and the short-circuiting every
invokes exactly the predicates up to and including the first failure, so
predicates after a failing one are not invoked for that emission. -/
theorem C5_limit_semantics {α : Type} (ps pre post : List (α → Bool))
    (p : α → Bool) (src v : α) (cur : Option α) :
    (limitSeed ps src = if ps.all (fun q => q src) then some src else none) ∧
    (limitAccepts ps v = ps.all (fun q => q v)) ∧
    (limitOnChange ps cur v =
      if ps.all (fun q => q v) then some v else cur) ∧
    ((∀ q ∈ pre, q v = true) → p v = false →
      (everyCount (pre ++ p :: post) v).2 = pre.length + 1) := by
  refine ⟨?_, ?_, ?_, fun h1 h2 => everyCount_shortCircuit pre post p v h1 h2⟩
  · simp [limitSeed, limitAccepts, everyCount_fst]
  · simp [limitAccepts, everyCount_fst]
  · simp [limitOnChange, limitAccepts, everyCount_fst]

/-- Witness for C5: with a passing predicate before it, a failing second
predicate short-circuits the walk after two invocations, leaving the
predicate after it uninvoked. -/
theorem C5_witness :
    (everyCount ([fun _ : Nat => true] ++
        (fun _ : Nat => false) :: [fun _ : Nat => true]) 0).2 = 2 :=
  (C5_limit_semantics [] [fun _ : Nat => true] [fun _ : Nat => true]
      (fun _ : Nat => false) 0 0 none).2.2.2
    (by intro q hq; simp at hq; subst hq; rfl) rfl

/-- C6: on every source emission, including the immediate one delivered at
subscription, the handler of unwrapPromise synchronously writes the
pending record with result and error absent before the asynchronous wait;
a fulfilment with r later stores pending false with result r; a rejection
with e is caught by the local try-catch, stored as the error field with
pending false and result absent, and is never re-raised: the settle step
is a total function into status records, with the rejection surfacing as
the error field rather than as an exception. -/
theorem C6_unwrap_promise_transitions (α ε : Type)
    (cell : UnwrappedPromise α ε) (r : α) (e : ε) :
    unwrapStep cell AsyncEvent.emission = UnwrappedPromise.mk none true none ∧
    unwrapStep cell (AsyncEvent.settle (PromiseOutcome.fulfilledWith r)) =
      UnwrappedPromise.mk (some r) false none ∧
    unwrapStep cell (AsyncEvent.settle (PromiseOutcome.rejectedWith e)) =
      UnwrappedPromise.mk none false (some e) ∧
    awaitOutcome (PromiseOutcome.rejectedWith e) =
      (Except.error e : Except ε α) ∧
    settleRecord (PromiseOutcome.rejectedWith e) =
      (UnwrappedPromise.mk none false (some e) : UnwrappedPromise α ε) ∧
    unwrapAfterConstruction α ε = UnwrappedPromise.mk none true none :=
  ⟨rfl, rfl, rfl, rfl, rfl, rfl⟩

/-- C7: a debounce limitation always returns false and performs no
synchronous write; each invocation discards the previously scheduled
delayed write and schedules exactly one write of the current candidate
value, due the debounce duration later; hence after a synchronous burst of
emissions at a common time, no delayed write has fired strictly before the
duration elapses past the burst, and exactly one write, carrying the last
emitted value, fires once the duration has elapsed after the last
emission. -/
theorem C7_debounce_semantics {α : Type} (ms t : Nat) (v0 : α)
    (s : DebounceState α) (vs : List α) (last : α) :
    ((debounceCall ms t v0 true s).2.1 = false) ∧
    ((debounceCall ms t v0 true s).2.2 = []) ∧
    ((debounceCall ms t v0 true s).1.timer = some (t + ms, v0, true)) ∧
    (vs.getLast? = some last →
      (debounceBurst ms t vs s).timer = some (t + ms, last, true) ∧
      (∀ T, T < t + ms → debounceFires (debounceBurst ms t vs s) T = []) ∧
      debounceFires (debounceBurst ms t vs s) (t + ms) = [last]) := by
  refine ⟨rfl, rfl, rfl, fun h => ?_⟩
  have ht := debounceBurst_timer ms t vs s last h
  refine ⟨ht, ?_, ?_⟩
  · intro T hT
    have hnot : ¬ (t + ms ≤ T) := by omega
    simp [debounceFires, ht, hnot]
  · simp [debounceFires, ht]

/-- Witness for C7 on a two-emission burst. -/
theorem C7_witness :
    (debounceBurst 1000 0 [10, 20] (DebounceState.mk none : DebounceState Nat)).timer =
      some (0 + 1000, 20, true) :=
  ((C7_debounce_semantics 1000 0 10 (DebounceState.mk none) [10, 20]
      20).2.2.2 rfl).1

/-- C8 counterexample: the construction-time evaluation of a limitation by
limit (index.ts line 246 reads limitation(initialSource)) passes no second
argument at all, so that invocation does not receive the internal writable
cell, contradicting the claim that every invocation does. -/
theorem C8_counterexample :
    (limitConstructionCalls [fun _ : Nat => true] 0).map Prod.snd = [none] ∧
    (none : Option CellToken) ≠ some CellToken.internalCell :=
  ⟨rfl, by decide⟩

/-- C8 amended: every invocation of a limitation performed by limit on a
source emission receives the internal writable cell as its second
argument, while the evaluation performed at construction against the
current source value passes no second argument; in both phases the
short-circuiting every determines how many invocations occur. -/
theorem C8_amended_second_argument {α : Type} (ps : List (α → Bool))
    (src v : α) :
    (∀ call ∈ limitEmissionCalls ps v,
      call.2 = some CellToken.internalCell) ∧
    (∀ call ∈ limitConstructionCalls ps src, call.2 = none) ∧
    (limitEmissionCalls ps v).length = (everyCount ps v).2 ∧
    (limitConstructionCalls ps src).length = (everyCount ps src).2 := by
  refine ⟨?_, ?_, by simp [limitEmissionCalls], by simp [limitConstructionCalls]⟩
  · intro call hc
    rw [List.eq_of_mem_replicate hc]
  · intro call hc
    rw [List.eq_of_mem_replicate hc]

/-- Witness for the amended C8 at a singleton predicate list. -/
theorem C8_witness :
    ((0 : Nat), some CellToken.internalCell).2 = some CellToken.internalCell :=
  (C8_amended_second_argument [fun _ : Nat => true] 0 0).1
    (0, some CellToken.internalCell) (by decide)

/-- C9: the internal limit cell of fulfilled, from its seeding onward,
only ever holds null or a record with pending false and error absent, so
the projected value only draws a result from such records; an emission
that is pending or carries an error leaves the cell, and hence the last
good result, unchanged; an emission passing the limitation is stored and
projects to its result. -/
theorem C9_fulfilled_retention {α ε : Type} (init r : UnwrappedPromise α ε)
    (ems : List (UnwrappedPromise α ε))
    (cur : Option (UnwrappedPromise α ε)) :
    Option.all fulfilledPred (ems.foldl fulfilledStep (fulfilledSeed init)) =
      true ∧
    (r.pending = true → fulfilledStep cur r = cur) ∧
    (∀ e : ε, r.error = some e → fulfilledStep cur r = cur) ∧
    (fulfilledPred r = true →
      fulfilledStep cur r = some r ∧
      fulfilledProject (fulfilledStep cur r) = r.result) := by
  refine ⟨fulfilled_foldl_all ems (fulfilledSeed init) (fulfilledSeed_all init),
    ?_, ?_, ?_⟩
  · intro hp
    simp [fulfilledStep, limitOnChange, limitAccepts, everyCount,
      fulfilledPred, hp]
  · intro e he
    simp [fulfilledStep, limitOnChange, limitAccepts, everyCount,
      fulfilledPred, he]
  · intro hp
    constructor <;>
      simp [fulfilledStep, fulfilledProject, limitOnChange, limitAccepts,
        everyCount, hp]

/-- Witness for C9: a pending emission leaves a previously retained result
in place. -/
theorem C9_witness :
    fulfilledStep (some (UnwrappedPromise.mk (some 3) false none))
        (UnwrappedPromise.mk none true none : UnwrappedPromise Nat Nat) =
      some (UnwrappedPromise.mk (some 3) false none) :=
  (C9_fulfilled_retention
      (UnwrappedPromise.mk none false none : UnwrappedPromise Nat Nat)
      (UnwrappedPromise.mk none true none) []
      (some (UnwrappedPromise.mk (some 3) false none))).2.1 rfl

/-- Membership among the live observers, unfolded to an entry witness. -/
theorem mem_aliveIds_iff (es : List (Nat × Bool)) (i : Nat) :
    i ∈ aliveIds es ↔ ∃ e, (e ∈ es ∧ e.2 = true) ∧ e.1 = i := by
  simp [aliveIds]

/-- hasId tests membership among the live observers. -/
theorem hasId_eq_true_iff (es : List (Nat × Bool)) (i : Nat) :
    hasId es i = true ↔ i ∈ aliveIds es := by
  simp [hasId, aliveIds, List.any_eq_true]

/-- aliveIds distributes over append. -/
theorem aliveIds_append (l1 l2 : List (Nat × Bool)) :
    aliveIds (l1 ++ l2) = aliveIds l1 ++ aliveIds l2 := by
  simp [aliveIds]

/-- A callback effect other than a removal never edits existing entries:
the old table is a prefix of the new one. -/
theorem applyAct_prefix (es : List (Nat × Bool)) (a : Act)
    (ha : ∀ j, a ≠ Act.removeObs j) :
    List.IsPrefix es (applyAct es a) := by
  cases a with
  | noop => exact List.prefix_refl es
  | removeObs j => exact absurd rfl (ha j)
  | addObs j =>
    simp only [applyAct, addId]
    by_cases h : hasId es j
    · rw [if_pos h]
    · rw [if_neg h]
      exact List.prefix_append es [(j, true)]

/-- A callback effect other than a removal keeps the live observers
duplicate-free: an id is only appended while it is not live. -/
theorem applyAct_nodup (es : List (Nat × Bool)) (a : Act)
    (ha : ∀ j, a ≠ Act.removeObs j)
    (hn : (aliveIds es).Nodup) :
    (aliveIds (applyAct es a)).Nodup := by
  cases a with
  | noop => exact hn
  | removeObs j => exact absurd rfl (ha j)
  | addObs j =>
    simp only [applyAct, addId]
    by_cases h : hasId es j
    · rw [if_pos h]
      exact hn
    · rw [if_neg h, aliveIds_append]
      have hj : j ∉ aliveIds es := fun hm => h ((hasId_eq_true_iff es j).mpr hm)
      have h1 : aliveIds [(j, true)] = [j] := rfl
      rw [h1]
      refine List.Nodup.append hn (List.nodup_singleton j) ?_
      intro x hx hx2
      simp at hx2
      subst hx2
      exact hj hx

/-- aliveIds is monotone with respect to the sublist order. -/
theorem aliveIds_sublist {l1 l2 : List (Nat × Bool)}
    (h : List.Sublist l1 l2) :
    List.Sublist (aliveIds l1) (aliveIds l2) := by
  unfold aliveIds
  exact (h.filter (fun e => e.2)).map (fun e => e.1)

/-- Under non-removal callbacks the forEach loop only appends entries —
the original table survives as a prefix — and keeps the live observers
duplicate-free. -/
theorem forEachSet_prefix_nodup {α : Type} (acts : Nat → Act) (v : α)
    (hacts : ∀ i j, acts i ≠ Act.removeObs j) :
    ∀ (fuel : Nat) (es : List (Nat × Bool)) (pos : Nat),
      (aliveIds es).Nodup →
      List.IsPrefix es (forEachSet acts v fuel es pos).1 ∧
      (aliveIds (forEachSet acts v fuel es pos).1).Nodup := by
  intro fuel
  induction fuel with
  | zero =>
    intro es pos hn
    exact ⟨List.prefix_refl es, hn⟩
  | succ fuel ih =>
    intro es pos hn
    by_cases h : pos < es.length
    · by_cases halive : (es.get ⟨pos, h⟩).2
      · have hpre := applyAct_prefix es (acts (es.get ⟨pos, h⟩).1)
          (hacts (es.get ⟨pos, h⟩).1)
        have hnd := applyAct_nodup es (acts (es.get ⟨pos, h⟩).1)
          (hacts (es.get ⟨pos, h⟩).1) hn
        have hrec := ih (applyAct es (acts (es.get ⟨pos, h⟩).1)) (pos + 1) hnd
        simp only [forEachSet, dif_pos h, halive, if_true]
        exact ⟨hpre.trans hrec.1, hrec.2⟩
      · have hrec := ih es (pos + 1) hn
        simp only [forEachSet, dif_pos h, halive, if_false]
        exact hrec
    · simp only [forEachSet, dif_neg h]
      exact ⟨List.prefix_refl es, hn⟩

/-- Under non-removal callbacks an observer whose position the iteration
has already passed receives no further invocation: its entry stays live,
so its id is never re-appended, and no later live entry carries it. -/
theorem forEachSet_no_further_calls {α : Type} (acts : Nat → Act) (v : α)
    (hacts : ∀ i j, acts i ≠ Act.removeObs j) :
    ∀ (fuel : Nat) (es : List (Nat × Bool)) (pos i : Nat),
      (aliveIds es).Nodup →
      i ∈ aliveIds (es.take pos) →
      callsTo (forEachSet acts v fuel es pos).2 i = [] := by
  intro fuel
  induction fuel with
  | zero =>
    intro es pos i hn hi
    simp [forEachSet, callsTo]
  | succ fuel ih =>
    intro es pos i hn hi
    by_cases h : pos < es.length
    · have htake : i ∈ aliveIds (es.take (pos + 1)) := by
        have h2 : (es.take (pos + 1)).take pos = es.take pos := by
          rw [List.take_take]
          congr 1
          omega
        have h1 : List.IsPrefix (es.take pos) (es.take (pos + 1)) := by
          rw [← h2]
          exact List.take_prefix pos (es.take (pos + 1))
        obtain ⟨e, ⟨he, he2⟩, he1⟩ := (mem_aliveIds_iff _ i).mp hi
        exact (mem_aliveIds_iff _ i).mpr ⟨e, ⟨h1.subset he, he2⟩, he1⟩
      by_cases halive : (es.get ⟨pos, h⟩).2
      · have hne : (es.get ⟨pos, h⟩).1 ≠ i := by
          intro heq
          have hsplit : aliveIds es =
              aliveIds (es.take pos) ++ aliveIds (es.drop pos) := by
            rw [← aliveIds_append, List.take_append_drop]
          have hdrop : es.drop pos = es.get ⟨pos, h⟩ :: es.drop (pos + 1) := by
            rw [List.drop_eq_getElem_cons h]
            simp
          have hmem2 : i ∈ aliveIds (es.drop pos) := by
            rw [hdrop, aliveIds_cons, if_pos halive, heq]
            exact List.mem_cons_self i _
          have hnd2 : (aliveIds (es.take pos) ++ aliveIds (es.drop pos)).Nodup := by
            rw [← hsplit]
            exact hn
          exact List.disjoint_of_nodup_append hnd2 hi hmem2
        have hpre := applyAct_prefix es (acts (es.get ⟨pos, h⟩).1)
          (hacts (es.get ⟨pos, h⟩).1)
        have hnd := applyAct_nodup es (acts (es.get ⟨pos, h⟩).1)
          (hacts (es.get ⟨pos, h⟩).1) hn
        have hmem3 : i ∈ aliveIds
            ((applyAct es (acts (es.get ⟨pos, h⟩).1)).take (pos + 1)) := by
          obtain ⟨t, ht⟩ := hpre
          rw [← ht, List.take_append_of_le_length (by omega)]
          exact htake
        have hrec := ih _ (pos + 1) i hnd hmem3
        simp only [forEachSet, dif_pos h, halive, if_true]
        simp only [callsTo, List.filterMap_cons] at hrec ⊢
        rw [if_neg hne]
        exact hrec
      · have hrec := ih es (pos + 1) i hn htake
        simp only [forEachSet, dif_pos h, halive, if_false]
        exact hrec
    · simp only [forEachSet, dif_neg h]
      simp [callsTo]

/-- A fan-out log entry addressed to the requested observer contributes
its value. -/
theorem callsTo_cons_self {α : Type} (i : Nat) (v : α) (l : List (Nat × α)) :
    callsTo ((i, v) :: l) i = v :: callsTo l i := by
  simp [callsTo]

/-- A fan-out log entry addressed to another observer contributes
nothing. -/
theorem callsTo_cons_ne {α : Type} (j i : Nat) (v : α) (l : List (Nat × α))
    (h : j ≠ i) :
    callsTo ((j, v) :: l) i = callsTo l i := by
  simp [callsTo, h]

/-- Under non-removal callbacks, with fuel covering the original region of
the table, every observer live in the original region from the current
position onward is invoked exactly once with the notified value. -/
theorem forEachSet_no_removal_calls {α : Type} (acts : Nat → Act) (v : α)
    (hacts : ∀ i j, acts i ≠ Act.removeObs j) :
    ∀ (fuel : Nat) (es : List (Nat × Bool)) (pos L : Nat),
      (aliveIds es).Nodup →
      L ≤ es.length →
      L ≤ pos + fuel →
      ∀ i ∈ aliveIds ((es.take L).drop pos),
        callsTo (forEachSet acts v fuel es pos).2 i = [v] := by
  intro fuel
  induction fuel with
  | zero =>
    intro es pos L hn hL hfuel i hi
    have hnil : (es.take L).drop pos = [] := by
      apply List.drop_eq_nil_of_le
      rw [List.length_take]
      omega
    rw [hnil] at hi
    simp [aliveIds] at hi
  | succ fuel ih =>
    intro es pos L hn hL hfuel i hi
    by_cases hpL : pos < L
    · have h : pos < es.length := by omega
      have hlen2 : pos < (es.take L).length := by
        rw [List.length_take]
        omega
      have hgetT : (es.take L).get ⟨pos, hlen2⟩ = es.get ⟨pos, h⟩ := by
        simp [List.getElem_take]
      have hseg : (es.take L).drop pos =
          es.get ⟨pos, h⟩ :: (es.take L).drop (pos + 1) := by
        rw [List.drop_eq_getElem_cons hlen2, ← hgetT]
        simp
      have hsub : List.Sublist ((es.take L).drop pos) es :=
        (List.drop_sublist pos (es.take L)).trans (List.take_sublist L es)
      have hsegnd : (aliveIds ((es.take L).drop pos)).Nodup :=
        hn.sublist (aliveIds_sublist hsub)
      by_cases halive : (es.get ⟨pos, h⟩).2
      · rw [hseg, aliveIds_cons, if_pos halive] at hi hsegnd
        have hnotin : (es.get ⟨pos, h⟩).1 ∉
            aliveIds ((es.take L).drop (pos + 1)) :=
          (List.nodup_cons.mp hsegnd).1
        have hpre := applyAct_prefix es (acts (es.get ⟨pos, h⟩).1)
          (hacts (es.get ⟨pos, h⟩).1)
        have hnd := applyAct_nodup es (acts (es.get ⟨pos, h⟩).1)
          (hacts (es.get ⟨pos, h⟩).1) hn
        obtain ⟨t, ht⟩ := hpre
        have htakeL : (applyAct es (acts (es.get ⟨pos, h⟩).1)).take L
            = es.take L := by
          rw [← ht, List.take_append_of_le_length hL]
        rcases List.mem_cons.mp hi with heq | hmem
        · subst heq
          have hconcat : es.take pos ++ [es.get ⟨pos, h⟩] = es.take (pos + 1) := by
            have h4 := List.take_concat_get es pos h
            rw [List.concat_eq_append] at h4
            exact h4
          have h5 : aliveIds [es.get ⟨pos, h⟩] = [(es.get ⟨pos, h⟩).1] := by
            rw [aliveIds_cons, if_pos halive]
            rfl
          have hselfmem : (es.get ⟨pos, h⟩).1 ∈ aliveIds
              ((applyAct es (acts (es.get ⟨pos, h⟩).1)).take (pos + 1)) := by
            rw [← ht, List.take_append_of_le_length (by omega), ← hconcat,
              aliveIds_append, h5]
            exact List.mem_append_right _ (by simp)
          have hzero := forEachSet_no_further_calls acts v hacts fuel
            (applyAct es (acts (es.get ⟨pos, h⟩).1)) (pos + 1)
            (es.get ⟨pos, h⟩).1 hnd hselfmem
          simp only [forEachSet, dif_pos h, halive, if_true]
          rw [callsTo_cons_self, hzero]
        · have hne : (es.get ⟨pos, h⟩).1 ≠ i := by
            intro heq
            exact hnotin (by rw [heq]; exact hmem)
          have hL2 : L ≤ (applyAct es (acts (es.get ⟨pos, h⟩).1)).length := by
            rw [← ht, List.length_append]
            omega
          have hmemb : i ∈ aliveIds
              (((applyAct es (acts (es.get ⟨pos, h⟩).1)).take L).drop (pos + 1)) := by
            rw [htakeL]
            exact hmem
          have hrec := ih (applyAct es (acts (es.get ⟨pos, h⟩).1)) (pos + 1) L
            hnd hL2 (by omega) i hmemb
          simp only [forEachSet, dif_pos h, halive, if_true]
          rw [callsTo_cons_ne _ _ _ _ hne]
          exact hrec
      · rw [hseg, aliveIds_cons, if_neg halive] at hi
        have hrec := ih es (pos + 1) L hn hL (by omega) i hi
        simp only [forEachSet, dif_pos h, halive, if_false]
        exact hrec
    · have hnil : (es.take L).drop pos = [] := by
        apply List.drop_eq_nil_of_le
        rw [List.length_take]
        omega
      rw [hnil] at hi
      simp [aliveIds] at hi

/-- C3 amended: during the notification fan-out of a single set call in
which no observer callback removes an observer from the set being
iterated — callbacks may add observers, and the live iteration visits the
appended entries too — no observer registered at the start of that
fan-out is skipped and none is invoked twice: each is invoked exactly
once with the new value; moreover the fan-out never corrupts the observer
set: the original entries survive unchanged as a prefix and the live
observers stay duplicate-free. -/
theorem C3_fanout_no_removal_exactly_once {α : Type} [DecidableEq α]
    (acts : Nat → Act) (c : CellW α) (v : α) (fuel : Nat)
    (hv : v ≠ c.value)
    (hacts : ∀ i j, acts i ≠ Act.removeObs j)
    (hn : (aliveIds c.subs).Nodup)
    (hfuel : c.subs.length ≤ fuel) :
    (∀ i ∈ aliveIds c.subs,
      callsTo (CellW.setW fuel acts c v).2 i = [v]) ∧
    List.IsPrefix c.subs (CellW.setW fuel acts c v).1.subs ∧
    (aliveIds (CellW.setW fuel acts c v).1.subs).Nodup := by
  have hunfold : CellW.setW fuel acts c v =
      (CellW.mk v (forEachSet acts v fuel c.subs 0).1,
       (forEachSet acts v fuel c.subs 0).2) := by
    simp [CellW.setW, hv]
  rw [hunfold]
  refine ⟨?_, ?_, ?_⟩
  · intro i hi
    have hmem : i ∈ aliveIds ((c.subs.take c.subs.length).drop 0) := by
      rw [List.take_length, List.drop_zero]
      exact hi
    exact forEachSet_no_removal_calls acts v hacts fuel c.subs 0
      c.subs.length hn (Nat.le_refl _) (by omega) i hmem
  · exact (forEachSet_prefix_nodup acts v hacts fuel c.subs 0 hn).1
  · exact (forEachSet_prefix_nodup acts v hacts fuel c.subs 0 hn).2

/-- Witness for the amended C3: observer 0 adds a new observer 2 to the
set mid-fan-out; the start-registered observer 1 is still invoked exactly
once with the new value. -/
theorem C3_witness :
    callsTo
      (CellW.setW 3 (fun n => if n = 0 then Act.addObs 2 else Act.noop)
        (CellW.mk (0 : Nat) [(0, true), (1, true)]) 7).2 1 = [7] :=
  (C3_fanout_no_removal_exactly_once
      (fun n => if n = 0 then Act.addObs 2 else Act.noop)
      (CellW.mk 0 [(0, true), (1, true)]) 7 3 (by decide)
      (by intro i j; by_cases hi : i = 0 <;> simp [hi])
      (by decide) (by decide)).1 1 (by decide)
